import Mathlib

/-!
Shallow embedding of the tabular preprocessing pipeline defined in
src/solution/Pipeline1.py.

The pipeline operates on pandas DataFrames.  A table is modelled as a row
count together with an ordered list of named columns; each column carries a
pandas dtype (int64, float64, object, or category with its vocabulary) and a
list of cells.  A cell is either missing (pandas NaN, modelled as none) or a
value: a string, an int64 integer, or a float64 number (modelled as a
rational to keep arithmetic exact).

Fallible operations return Except PipeError.  Transforms that assign into
the caller frame with X.loc are modelled by uniform call wrappers returning
both the transform output and the state of the caller argument after the
call: for the in-place transforms the two coincide, for the pure selectors
the caller argument is returned unchanged.
-/

namespace Pipeline1

/-- Cell values that can appear in a column of the modelled DataFrame. -/
inductive Val where
  | str (s : String)
  | int (n : Int)
  | rat (q : ℚ)
deriving DecidableEq, Repr

/-- A cell is either missing (pandas NaN, modelled as none) or a value. -/
abbrev Cell := Option Val

/-- Pandas dtypes used by the pipeline; a categorical dtype carries its
category vocabulary, as a pandas CategoricalDtype does. -/
inductive Dtype where
  | int64
  | float64
  | object
  | category (cats : List String)
deriving DecidableEq, Repr

/-- Name of a dtype as it appears in a pandas dtype comparison, used by
TypeSelector via DataFrame.select_dtypes. -/
def Dtype.tag : Dtype → String
  | .int64 => "int64"
  | .float64 => "float64"
  | .object => "object"
  | .category _ => "category"

/-- A named column: dtype plus cells. -/
structure Column where
  name : String
  dtype : Dtype
  cells : List Cell
deriving DecidableEq, Repr

/-- A DataFrame: a row count (the index length) and ordered named columns. -/
structure Table where
  nrows : Nat
  cols : List Column
deriving DecidableEq, Repr

/-- Ordered column names of a table. -/
def Table.names (X : Table) : List String := X.cols.map Column.name

/-- First column with the given name, as DataFrame column lookup does. -/
def Table.findCol (X : Table) (c : String) : Option Column :=
  X.cols.find? (fun col => col.name = c)

/-- Errors raised by the pipeline, mirroring the Python exceptions:
KeyError with the missing-column list, TypeError, ValueError, IndexError,
the generic strategy Exception, and shape mismatches. -/
inductive PipeError where
  | schemaError (missing : List String)
  | typeError
  | valueError
  | indexError
  | configError
  | shapeError
deriving DecidableEq, Repr

/-- Monadic map over Except, written as an explicit recursion: the first
error aborts, exactly like a Python for-loop raising mid-iteration. -/
def mapE (f : α → Except PipeError β) : List α → Except PipeError (List β)
  | [] => .ok []
  | a :: l =>
    match f a with
    | .error e => .error e
    | .ok b =>
      match mapE f l with
      | .error e => .error e
      | .ok bs => .ok (b :: bs)

/-- Monadic left fold over Except, threading a state through a statement
sequence and aborting at the first error. -/
def foldE (f : σ → α → Except PipeError σ) (init : σ) : List α → Except PipeError σ
  | [] => .ok init
  | a :: l =>
    match f init a with
    | .error e => .error e
    | .ok s => foldE f s l

/-! ## ColumnSelector -/

/-- Look up every requested column in order; none signals a KeyError, as
DataFrame indexing with a column list does when any name is absent. -/
def selectCols (X : Table) : List String → Option (List Column)
  | [] => some []
  | c :: l =>
    match X.findCol c with
    | none => none
    | some col => (selectCols X l).map (col :: ·)

/-- ColumnSelector.transform: return X indexed by the requested column list;
on a KeyError, re-raise listing the set difference of the requested columns
minus the input columns (Pipeline1.py lines 36 to 43). -/
def columnSelector (sel : List String) (X : Table) : Except PipeError Table :=
  match selectCols X sel with
  | some cs => .ok ⟨X.nrows, cs⟩
  | none => .error (.schemaError ((sel.filter (fun c => !(X.names.contains c))).dedup))

/-! ## TypeSelector -/

/-- TypeSelector.transform: DataFrame.select_dtypes with an include list,
keeping the columns whose dtype is in the list, in their original relative
order (Pipeline1.py lines 79 to 81). -/
def typeSelector (dtypes : List String) (X : Table) : Table :=
  ⟨X.nrows, X.cols.filter (fun c => dtypes.contains c.dtype.tag)⟩

/-! ## CustomTypeTransformer -/

/-- Present string values of a cell list; none when some present cell is not
a string (astype to category is modelled for string-valued columns only). -/
def presentStrs : List Cell → Option (List String)
  | [] => some []
  | none :: cs => presentStrs cs
  | some (.str s) :: cs => (presentStrs cs).map (s :: ·)
  | some _ :: _ => none

/-- Ascending sorted list of the distinct members of a string list; this is
the category order pandas assigns when coercing sortable values with astype
to category, and the class order numpy.unique gives LabelEncoder. -/
def sortedDistinct (l : List String) : List String :=
  List.insertionSort (· ≤ ·) l.dedup

/-- Coerce one column with Series.astype to category: a categorical column
is returned unchanged, any other column becomes categorical with the sorted
distinct present values as its vocabulary and its cells untouched. -/
def Column.astypeCategory (c : Column) : Except PipeError Column :=
  match c.dtype with
  | .category _ => .ok c
  | _ =>
    match presentStrs c.cells with
    | some l => .ok { c with dtype := .category (sortedDistinct l) }
    | none => .error .typeError

/-- One statement of CustomTypeTransformer.transform: the X.loc assignment
replacing the named column by its astype to category conversion; a missing
column name raises a KeyError. -/
def Table.astypeCategoryAt (X : Table) (cname : String) : Except PipeError Table :=
  if cname ∈ X.names then
    match mapE (fun c => if c.name = cname then c.astypeCategory else .ok c) X.cols with
    | .ok cs => .ok ⟨X.nrows, cs⟩
    | .error e => .error e
  else .error (.schemaError [cname])

/-- The eight columns CustomTypeTransformer coerces to category
(Pipeline1.py lines 53 to 63). -/
def catCols8 : List String :=
  ["workclass", "education", "marital-status", "occupation", "relationship",
   "race", "sex", "native-country"]

/-- CustomTypeTransformer.transform: eight successive in-place astype
assignments on the caller frame, returning the same frame. -/
def customTypeTransform (X : Table) : Except PipeError Table :=
  foldE Table.astypeCategoryAt X catCols8

/-! ## MissingCategoricalsTransformer -/

/-- Strategy none (the fill-constant strategy of the spec): the cat accessor
requires a categorical dtype, cat.add_categories raises a ValueError when
Unknown is already a category, and fillna replaces each missing cell with
the literal Unknown (Pipeline1.py line 99). -/
def Column.fillUnknown (c : Column) : Except PipeError Column :=
  match c.dtype with
  | .category cats =>
    if "Unknown" ∈ cats then .error .valueError
    else
      .ok { c with dtype := .category (cats ++ ["Unknown"]),
                   cells := c.cells.map (fun cell => some (cell.getD (Val.str "Unknown"))) }
  | _ => .error .typeError

/-- Keys of Series.value_counts for a column: for a categorical column every
category is counted, including categories occurring zero times; for any
other dtype the distinct present values. -/
def Column.valueKeys (c : Column) : List Val :=
  match c.dtype with
  | .category cats => cats.map Val.str
  | _ => (c.cells.filterMap id).dedup

/-- Number of present cells holding the given value. -/
def countOcc (cells : List Cell) (v : Val) : Nat :=
  (cells.filter (fun cell => cell = some v)).length

/-- Head of value_counts().index: the keys sorted by descending count, then
the first entry; none exactly when there are no keys at all. -/
def Column.mostFrequent (c : Column) : Option Val :=
  (List.insertionSort (fun a b => countOcc c.cells b ≤ countOcc c.cells a) c.valueKeys).head?

/-- Strategy most_frequent: fillna with value_counts().index[0]; an empty
count index makes the subscript raise an IndexError (Pipeline1.py line 101). -/
def Column.fillMostFrequent (c : Column) : Except PipeError Column :=
  match c.mostFrequent with
  | none => .error .indexError
  | some v => .ok { c with cells := c.cells.map (fun cell => some (cell.getD v)) }

/-- Per-column body of MissingCategoricalsTransformer.transform: the if-elif
chain on the strategy, any unknown strategy raising the generic Exception
(Pipeline1.py lines 97 to 103). -/
def missingStep (strategy : String) (c : Column) : Except PipeError Column :=
  if strategy = "none" then c.fillUnknown
  else if strategy = "most_frequent" then c.fillMostFrequent
  else .error .configError

/-- MissingCategoricalsTransformer.transform: apply the strategy to every
column in order, assigning each result back into the caller frame. -/
def missingCategoricalsTransform (strategy : String) (X : Table) : Except PipeError Table :=
  match mapE (missingStep strategy) X.cols with
  | .ok cs => .ok ⟨X.nrows, cs⟩
  | .error e => .error e

/-! ## PipelineAwareLabelEncoder -/

/-- All cells as present strings; none when some cell is missing or holds a
non-string value, in which case sklearn LabelEncoder.fit_transform on the
column raises while sorting the class array. -/
def allPresentStrs : List Cell → Option (List String)
  | [] => some []
  | some (.str s) :: cs => (allPresentStrs cs).map (s :: ·)
  | _ => none

/-- Modelled from the spec words for claim C1 only: the code a label gets is
the number of distinct observed labels strictly smaller than it, which is
its position in the ascending sort of the distinct labels. -/
def specCode (vals : List String) (v : String) : Nat :=
  (vals.dedup.filter (fun w => decide (w < v))).length

/-- LabelEncoder().fit_transform on one column: classes are the sorted
distinct values of this call input, each cell becomes the index of its value
in the class list, and the assignment back into the frame leaves an integer
column (Pipeline1.py line 116). -/
def Column.labelEncode (c : Column) : Except PipeError Column :=
  match allPresentStrs c.cells with
  | none => .error .typeError
  | some vals =>
    .ok { name := c.name, dtype := .int64,
          cells := vals.map (fun s => some (Val.int ((sortedDistinct vals).indexOf s))) }

/-- PipelineAwareLabelEncoder.transform: encode every column of this call
input independently, writing each result back into the caller frame
(Pipeline1.py lines 114 to 117). -/
def labelEncoderTransform (X : Table) : Except PipeError Table :=
  match mapE Column.labelEncode X.cols with
  | .ok cs => .ok ⟨X.nrows, cs⟩
  | .error e => .error e

/-! ## StandardScaler and OneHotEncoder (fitted collaborators) -/

/-- A matrix, row major, with exact rational entries. -/
abbrev Mat := List (List ℚ)

/-- Fitted state of StandardScaler: per-feature mean and scale. -/
structure ScalerParams where
  mean : List ℚ
  scale : List ℚ
deriving DecidableEq, Repr

/-- Numeric content of a cell, if any. -/
def cellRat? : Cell → Option ℚ
  | some (.int n) => some (n : ℚ)
  | some (.rat q) => some q
  | _ => none

/-- Rows of a table: for each index position the cells of every column. -/
def Table.rowCells (X : Table) : List (List Cell) :=
  (List.range X.nrows).map (fun i => X.cols.map (fun c => c.cells.getD i none))

/-- Scale one row with the fitted means and scales. -/
def scaleRow (p : ScalerParams) (row : List Cell) : Except PipeError (List ℚ) :=
  mapE (fun x =>
    match cellRat? x.1 with
    | some v => .ok ((v - x.2.1) / x.2.2)
    | none => .error .typeError) (row.zip (p.mean.zip p.scale))

/-- StandardScaler.transform with fitted parameters: the feature count must
match the fitted width, then every entry is centred and scaled. -/
def scalerTransform (p : ScalerParams) (X : Table) : Except PipeError Mat :=
  if p.mean.length = X.cols.length ∧ p.scale.length = X.cols.length then
    mapE (scaleRow p) X.rowCells
  else .error .shapeError

/-- One-hot encode one integer cell against the fitted category list of its
column; an unseen value raises, as handle_unknown equal to error does. -/
def oneHotCell (cats : List Int) (cell : Cell) : Except PipeError (List ℚ) :=
  match cell with
  | some (.int v) =>
    if cats.contains v then .ok (cats.map (fun c => if c = v then 1 else 0))
    else .error .valueError
  | _ => .error .typeError

/-- One-hot encode one row: indicator blocks per column, concatenated in
column-then-category order. -/
def oheRow (catsList : List (List Int)) (row : List Cell) : Except PipeError (List ℚ) :=
  match mapE (fun x => oneHotCell x.1 x.2) (catsList.zip row) with
  | .ok blocks => .ok blocks.flatten
  | .error e => .error e

/-- OneHotEncoder.transform with fitted per-column categories. -/
def oheTransform (catsList : List (List Int)) (X : Table) : Except PipeError Mat :=
  if catsList.length = X.cols.length then mapE (oheRow catsList) X.rowCells
  else .error .shapeError

/-! ## SparseToDataFrameTransformer -/

/-- SparseToDataFrameTransformer.transform: densify the matrix into a fresh
DataFrame whose columns are named by their positional index as a string
(Pipeline1.py lines 127 to 130). -/
def sparseToDataFrame (m : Mat) : Table :=
  ⟨m.length,
   (List.range (m.headD []).length).map (fun j =>
     ⟨toString j, Dtype.float64, m.map (fun row => some (Val.rat (row.getD j 0)))⟩)⟩

/-! ## Pipeline construction -/

/-- Column list of the ColumnSelector stage (Pipeline1.py lines 141 to 142). -/
def sel12 : List String :=
  ["age", "workclass", "education-num", "marital-status", "occupation",
   "relationship", "race", "sex", "capital-gain", "capital-loss",
   "hours-per-week", "native-country"]

/-- Fitted state of the whole preprocessing pipeline: the scaler parameters
of the numeric branch and the fitted one-hot category lists of the
categorical branch. -/
structure FittedParams where
  scaler : ScalerParams
  oheCats : List (List Int)
deriving DecidableEq, Repr

/-- Numeric branch of the FeatureUnion: select the int64 columns, then
standard scale them (Pipeline1.py lines 146 to 150). -/
def numericBranch (p : ScalerParams) (T : Table) : Except PipeError Mat :=
  scalerTransform p (typeSelector ["int64"] T)

/-- Categorical branch of the FeatureUnion: select the category columns,
fill missing values with strategy none, label encode per column, then
one-hot encode (Pipeline1.py lines 152 to 157). -/
def categoricalBranch (oc : List (List Int)) (T : Table) : Except PipeError Mat :=
  match missingCategoricalsTransform "none" (typeSelector ["category"] T) with
  | .error e => .error e
  | .ok M =>
    match labelEncoderTransform M with
    | .error e => .error e
    | .ok L => oheTransform oc L

/-- Column-wise concatenation of the two branch outputs; a row count
mismatch raises, as sparse hstack does. -/
def hstack (a b : Mat) : Except PipeError Mat :=
  if a.length = b.length then .ok ((a.zip b).map (fun r => r.1 ++ r.2))
  else .error .shapeError

/-- FeatureUnion.transform: both branches read the same input table, and
their outputs are concatenated in declared branch order. -/
def featureUnionTransform (f : FittedParams) (T : Table) : Except PipeError Mat :=
  match numericBranch f.scaler T with
  | .error e => .error e
  | .ok a =>
    match categoricalBranch f.oheCats T with
    | .error e => .error e
    | .ok b => hstack a b

/-- Stages of preprocess_pipeline after the CustomTypeTransformer: column
selection, the feature union, and the sparse-to-DataFrame materialization.
These stages operate on fresh frames, never on the caller table. -/
def preprocessRest (f : FittedParams) (X1 : Table) : Except PipeError Table :=
  match columnSelector sel12 X1 with
  | .error e => .error e
  | .ok T =>
    match featureUnionTransform f T with
    | .error e => .error e
    | .ok m => .ok (sparseToDataFrame m)

/-- preprocess_pipeline.transform after fit: the first component is the
output DataFrame, the second is the caller table after the call, which the
CustomTypeTransformer stage has mutated in place (Pipeline1.py lines 137 to
161). -/
def preprocessTransform (f : FittedParams) (X : Table) : Except PipeError (Table × Table) :=
  match customTypeTransform X with
  | .error e => .error e
  | .ok X1 =>
    match preprocessRest f X1 with
    | .error e => .error e
    | .ok out => .ok (out, X1)

/-! ## Call wrappers recording the caller frame after each transform -/

/-- ColumnSelector.transform call: the output is a fresh frame, the caller
argument is left untouched. -/
def columnSelectorCall (sel : List String) (X : Table) : Except PipeError (Table × Table) :=
  match columnSelector sel X with
  | .ok Y => .ok (Y, X)
  | .error e => .error e

/-- TypeSelector.transform call: select_dtypes builds a fresh frame, the
caller argument is left untouched. -/
def typeSelectorCall (dtypes : List String) (X : Table) : Table × Table :=
  (typeSelector dtypes X, X)

/-- SparseToDataFrameTransformer.transform call: builds a fresh frame from
the matrix, which is left untouched. -/
def sparseToDataFrameCall (m : Mat) : Table × Mat :=
  (sparseToDataFrame m, m)

/-- CustomTypeTransformer.transform call: every astype result is assigned
back with X.loc, so the returned frame is the caller frame. -/
def customTypeCall (X : Table) : Except PipeError (Table × Table) :=
  match customTypeTransform X with
  | .ok Y => .ok (Y, Y)
  | .error e => .error e

/-- MissingCategoricalsTransformer.transform call: every filled column is
assigned back with X.loc, so the returned frame is the caller frame. -/
def missingCategoricalsCall (strategy : String) (X : Table) : Except PipeError (Table × Table) :=
  match missingCategoricalsTransform strategy X with
  | .ok Y => .ok (Y, Y)
  | .error e => .error e

/-- PipelineAwareLabelEncoder.transform call: every encoded column is
assigned back with X.loc, so the returned frame is the caller frame. -/
def labelEncoderCall (X : Table) : Except PipeError (Table × Table) :=
  match labelEncoderTransform X with
  | .ok Y => .ok (Y, Y)
  | .error e => .error e

/-! ## Auxiliary predicates and concrete example data -/

/-- Boolean test for a categorical dtype. -/
def Column.isCatB (c : Column) : Bool :=
  match c.dtype with
  | .category _ => true
  | _ => false

/-- Every column bearing the given name has a categorical dtype. -/
def IsCatAt (X : Table) (n : String) : Prop :=
  ∀ c ∈ X.cols, c.name = n → c.isCatB = true

/-- Concrete fitted parameters for a one-row example run: identity scaling
for the five numeric features and one fitted code per categorical column. -/
def exFitted : FittedParams :=
  ⟨⟨[0, 0, 0, 0, 0], [1, 1, 1, 1, 1]⟩, [[0], [0], [0], [0], [0], [0], [0]]⟩

/-- Concrete one-row table in the raw Adult schema (the thirteen columns the
pipeline touches), with the numeric columns stored as int64 and the
categorical columns still stored as object. -/
def exAdult : Table :=
  ⟨1, [⟨"age", .int64, [some (.int 25)]⟩,
       ⟨"workclass", .object, [some (.str "Private")]⟩,
       ⟨"education", .object, [some (.str "HS")]⟩,
       ⟨"education-num", .int64, [some (.int 9)]⟩,
       ⟨"marital-status", .object, [some (.str "Single")]⟩,
       ⟨"occupation", .object, [some (.str "Sales")]⟩,
       ⟨"relationship", .object, [some (.str "Own")]⟩,
       ⟨"race", .object, [some (.str "White")]⟩,
       ⟨"sex", .object, [some (.str "Male")]⟩,
       ⟨"capital-gain", .int64, [some (.int 0)]⟩,
       ⟨"capital-loss", .int64, [some (.int 0)]⟩,
       ⟨"hours-per-week", .int64, [some (.int 40)]⟩,
       ⟨"native-country", .object, [some (.str "US")]⟩]⟩

/-- Output DataFrame of the example pipeline run on exAdult. -/
def exAdultOut : Table :=
  ((preprocessTransform exFitted exAdult).toOption.getD (⟨0, []⟩, ⟨0, []⟩)).1

/-- State of the caller table after the example pipeline run on exAdult. -/
def exAdultMut : Table :=
  ((preprocessTransform exFitted exAdult).toOption.getD (⟨0, []⟩, ⟨0, []⟩)).2

/-- Concrete selected table in the twelve-column schema of the ColumnSelector
stage, with the age column stored as float64 instead of int64. -/
def exSelectedFloat : Table :=
  ⟨1, [⟨"age", .float64, [some (.rat 25)]⟩,
       ⟨"workclass", .category ["Private"], [some (.str "Private")]⟩,
       ⟨"education-num", .int64, [some (.int 9)]⟩,
       ⟨"marital-status", .category ["Single"], [some (.str "Single")]⟩,
       ⟨"occupation", .category ["Sales"], [some (.str "Sales")]⟩,
       ⟨"relationship", .category ["Own"], [some (.str "Own")]⟩,
       ⟨"race", .category ["White"], [some (.str "White")]⟩,
       ⟨"sex", .category ["Male"], [some (.str "Male")]⟩,
       ⟨"capital-gain", .int64, [some (.int 0)]⟩,
       ⟨"capital-loss", .int64, [some (.int 0)]⟩,
       ⟨"hours-per-week", .int64, [some (.int 40)]⟩,
       ⟨"native-country", .category ["US"], [some (.str "US")]⟩]⟩

/-! ## General lemmas about the embedding combinators -/

theorem contains_true_iff {α : Type} [DecidableEq α] (l : List α) (a : α) :
    l.contains a = true ↔ a ∈ l := by
  simp [List.contains]

theorem mapE_ok_forall₂ {α β : Type} {f : α → Except PipeError β} {l : List α}
    {l' : List β} (h : mapE f l = .ok l') :
    List.Forall₂ (fun a b => f a = .ok b) l l' := by
  induction l generalizing l' with
  | nil =>
    simp only [mapE, Except.ok.injEq] at h
    subst h
    exact .nil
  | cons a t ih =>
    cases hfa : f a with
    | error e => simp [mapE, hfa] at h
    | ok b =>
      cases hmt : mapE f t with
      | error e => simp [mapE, hfa, hmt] at h
      | ok bs =>
        simp only [mapE, hfa, hmt, Except.ok.injEq] at h
        subst h
        exact .cons hfa (ih hmt)

theorem mapE_of_forall_ok {α β : Type} {f : α → Except PipeError β} {l : List α}
    (h : ∀ a ∈ l, ∃ b, f a = .ok b) :
    ∃ l', mapE f l = .ok l' ∧ List.Forall₂ (fun a b => f a = .ok b) l l' := by
  induction l with
  | nil => exact ⟨[], rfl, .nil⟩
  | cons a t ih =>
    obtain ⟨b, hb⟩ := h a (by simp)
    obtain ⟨bs, hbs, hf⟩ := ih (fun x hx => h x (by simp [hx]))
    exact ⟨b :: bs, by simp [mapE, hb, hbs], .cons hb hf⟩

theorem mapE_id {α : Type} {f : α → Except PipeError α} {l : List α}
    (h : ∀ a ∈ l, f a = .ok a) : mapE f l = .ok l := by
  induction l with
  | nil => rfl
  | cons a t ih =>
    simp [mapE, h a (by simp), ih (fun x hx => h x (by simp [hx]))]

theorem mapE_error_uniform {α β : Type} {f : α → Except PipeError β} {l : List α}
    {E : PipeError} (hall : ∀ a ∈ l, ∀ e, f a = .error e → e = E)
    (hbad : ∃ a ∈ l, ∀ b, f a ≠ .ok b) :
    mapE f l = .error E := by
  induction l with
  | nil => simp at hbad
  | cons a t ih =>
    cases hfa : f a with
    | error e =>
      have he : e = E := hall a (by simp) e hfa
      simp [mapE, hfa, he]
    | ok b =>
      obtain ⟨x, hx, hnx⟩ := hbad
      rcases List.mem_cons.mp hx with rfl | hxt
      · exact absurd hfa (hnx b)
      · have ht : mapE f t = .error E :=
          ih (fun y hy => hall y (by simp [hy])) ⟨x, hxt, hnx⟩
        simp [mapE, hfa, ht]

theorem findCol_eq_none_iff (X : Table) (c : String) :
    X.findCol c = none ↔ c ∉ X.names := by
  simp [Table.findCol, List.find?_eq_none, Table.names]

theorem findCol_name {X : Table} {c : String} {col : Column}
    (h : X.findCol c = some col) : col.name = c := by
  have := List.find?_some h
  simpa using this

theorem findCol_isSome {X : Table} {c : String} (h : c ∈ X.names) :
    ∃ col, X.findCol c = some col := by
  cases hfc : X.findCol c with
  | none => exact absurd h ((findCol_eq_none_iff X c).mp hfc)
  | some col => exact ⟨col, rfl⟩

theorem selectCols_none {X : Table} {sel : List String}
    (h : ∃ c ∈ sel, X.findCol c = none) : selectCols X sel = none := by
  induction sel with
  | nil => simp at h
  | cons c t ih =>
    cases hfc : X.findCol c with
    | none => simp [selectCols, hfc]
    | some col =>
      obtain ⟨d, hd, hdn⟩ := h
      have hdt : d ∈ t := by
        rcases List.mem_cons.mp hd with rfl | h2
        · rw [hfc] at hdn; cases hdn
        · exact h2
      simp [selectCols, hfc, ih ⟨d, hdt, hdn⟩]

theorem selectCols_ok {X : Table} {sel : List String}
    (h : ∀ c ∈ sel, c ∈ X.names) :
    ∃ cs, selectCols X sel = some cs ∧
      List.Forall₂ (fun c col => X.findCol c = some col) sel cs := by
  induction sel with
  | nil => exact ⟨[], rfl, .nil⟩
  | cons c t ih =>
    obtain ⟨col, hcol⟩ := findCol_isSome (h c (by simp))
    obtain ⟨cs, hcs, hf⟩ := ih (fun x hx => h x (by simp [hx]))
    exact ⟨col :: cs, by simp [selectCols, hcol, hcs], .cons hcol hf⟩

theorem names_of_selected {X : Table} {sel : List String} {cs : List Column}
    (h : List.Forall₂ (fun c col => X.findCol c = some col) sel cs) :
    cs.map Column.name = sel := by
  induction h with
  | nil => rfl
  | @cons a b _ _ hab _ ih => simpa [ih] using findCol_name hab

/-! ## Claim C5: ColumnSelector error completeness -/

/-- Claim C5: for every input table missing at least one requested column,
ColumnSelector.transform fails with a schema error whose column list equals,
as a set, the requested columns minus the input columns: every absent
column, not just the first miss. -/
theorem columnSelector_missing_complete (sel : List String) (X : Table)
    (h : ∃ c ∈ sel, c ∉ X.names) :
    ∃ miss, columnSelector sel X = .error (.schemaError miss) ∧
      ∀ s, s ∈ miss ↔ (s ∈ sel ∧ s ∉ X.names) := by
  obtain ⟨c, hc, hcn⟩ := h
  have hnone : selectCols X sel = none :=
    selectCols_none ⟨c, hc, (findCol_eq_none_iff X c).mpr hcn⟩
  refine ⟨(sel.filter (fun c => !(X.names.contains c))).dedup, ?_, ?_⟩
  · simp [columnSelector, hnone]
  · intro s
    simp [List.mem_dedup, List.mem_filter, List.contains]

/-- Witness for claim C5 at a concrete input: requesting columns x, age and
z from the example Adult table, where x and z are absent. -/
theorem columnSelector_missing_complete_witness :
    ∃ miss, columnSelector ["x", "age", "z"] exAdult = .error (.schemaError miss) ∧
      ∀ s, s ∈ miss ↔ (s ∈ ["x", "age", "z"] ∧ s ∉ exAdult.names) :=
  columnSelector_missing_complete ["x", "age", "z"] exAdult ⟨"x", by decide, by decide⟩

/-! ## Claim C8: ColumnSelector projection -/

/-- Claim C8: for every input table containing all requested columns,
ColumnSelector.transform returns a table with exactly the requested columns,
in exactly the requested order, each being the input column of that name. -/
theorem columnSelector_projection (sel : List String) (X : Table)
    (h : ∀ c ∈ sel, c ∈ X.names) :
    ∃ Y, columnSelector sel X = .ok Y ∧ Y.names = sel ∧ Y.nrows = X.nrows ∧
      List.Forall₂ (fun c col => X.findCol c = some col) sel Y.cols := by
  obtain ⟨cs, hcs, hf⟩ := selectCols_ok h
  exact ⟨⟨X.nrows, cs⟩, by simp [columnSelector, hcs], names_of_selected hf, rfl, hf⟩

/-- Witness for claim C8 at a concrete input: the pipeline column list on
the example Adult table. -/
theorem columnSelector_projection_witness :
    ∃ Y, columnSelector sel12 exAdult = .ok Y ∧ Y.names = sel12 ∧
      Y.nrows = exAdult.nrows ∧
      List.Forall₂ (fun c col => exAdult.findCol c = some col) sel12 Y.cols :=
  columnSelector_projection sel12 exAdult (by decide)

/-! ## Claim C9: TypeSelector semantics -/

/-- Claim C9: TypeSelector.transform never raises (it is a total function in
this embedding), preserves the row count, keeps matching columns in their
original relative order as a sublist of the input columns, keeps exactly the
columns whose dtype is in the requested set, and returns a zero-column table
when nothing matches. -/
theorem typeSelector_semantics (dtypes : List String) (X : Table) :
    (typeSelector dtypes X).nrows = X.nrows ∧
    (typeSelector dtypes X).cols.Sublist X.cols ∧
    (∀ c, c ∈ (typeSelector dtypes X).cols ↔ (c ∈ X.cols ∧ c.dtype.tag ∈ dtypes)) ∧
    ((∀ c ∈ X.cols, c.dtype.tag ∉ dtypes) → (typeSelector dtypes X).cols = []) := by
  refine ⟨rfl, List.filter_sublist X.cols, ?_, ?_⟩
  · intro c
    simp [typeSelector, List.mem_filter, List.contains]
  · intro h
    apply List.filter_eq_nil_iff.mpr
    intro c hc
    simpa [List.contains] using h c hc

/-- Witness for claim C9 at a concrete input: no column of the example Adult
table has dtype float64, and the selection is empty. -/
theorem typeSelector_semantics_witness :
    (typeSelector ["float64"] exAdult).cols = [] :=
  (typeSelector_semantics ["float64"] exAdult).2.2.2 (by decide)

/-! ## Claim C7: invalid imputation strategy -/

/-- Claim C7 counterexample: with an invalid strategy and a table with no
columns, transform returns the table unchanged instead of raising, because
the strategy check sits inside the per-column loop. -/
theorem invalid_strategy_empty_table_ok :
    missingCategoricalsTransform "bogus" ⟨3, []⟩ = .ok ⟨3, []⟩ := rfl

/-- Claim C7 as amended: for every strategy other than none (the
fill-constant strategy) and most_frequent, transform on any table with at
least one column fails with the configuration error; a zero-column table is
returned unchanged. -/
theorem invalid_strategy_raises (s : String) (X : Table)
    (h1 : s ≠ "none") (h2 : s ≠ "most_frequent") (h3 : X.cols ≠ []) :
    missingCategoricalsTransform s X = .error .configError := by
  cases hX : X.cols with
  | nil => exact absurd hX h3
  | cons c t =>
    have hstep : missingStep s c = .error .configError := by
      simp [missingStep, h1, h2]
    simp [missingCategoricalsTransform, hX, mapE, hstep]

/-- Witness for amended claim C7 at a concrete input. -/
theorem invalid_strategy_raises_witness :
    missingCategoricalsTransform "bogus" ⟨1, [⟨"c", .object, [none]⟩]⟩ =
      .error .configError :=
  invalid_strategy_raises "bogus" ⟨1, [⟨"c", .object, [none]⟩]⟩
    (by decide) (by decide) (by decide)

/-! ## Sorting lemmas for the label encoder -/

theorem sortedDistinct_perm (l : List String) : (sortedDistinct l).Perm l.dedup :=
  List.perm_insertionSort _ _

theorem sortedDistinct_sorted (l : List String) :
    List.Sorted (· ≤ ·) (sortedDistinct l) :=
  List.sorted_insertionSort _ _

theorem sortedDistinct_nodup (l : List String) : (sortedDistinct l).Nodup :=
  ((sortedDistinct_perm l).nodup_iff).mpr (List.nodup_dedup l)

theorem indexOf_sorted_nodup {l : List String} (hs : List.Sorted (· ≤ ·) l)
    (hn : l.Nodup) {v : String} (hv : v ∈ l) :
    l.indexOf v = (l.filter (fun w => decide (w < v))).length := by
  induction l with
  | nil => simp at hv
  | cons a t ih =>
    rcases List.mem_cons.mp hv with rfl | hvt
    · rw [List.indexOf_cons_self]
      have hfil : (v :: t).filter (fun w => decide (w < v)) = [] := by
        apply List.filter_eq_nil_iff.mpr
        intro w hw
        simp only [decide_eq_true_iff]
        rcases List.mem_cons.mp hw with rfl | hwt
        · exact lt_irrefl w
        · exact not_lt.mpr ((List.sorted_cons.mp hs).1 w hwt)
      rw [hfil]
      rfl
    · have hne : a ≠ v := by
        rintro rfl
        exact (List.nodup_cons.mp hn).1 hvt
      have hav : a < v := lt_of_le_of_ne ((List.sorted_cons.mp hs).1 v hvt) hne
      rw [List.indexOf_cons_ne _ hne]
      have ih2 := ih (List.sorted_cons.mp hs).2 (List.nodup_cons.mp hn).2 hvt
      have hdec : decide (a < v) = true := decide_eq_true hav
      rw [List.filter_cons, hdec]
      simp [ih2]

theorem allPresentStrs_eq : ∀ {cells : List Cell} {vals : List String},
    allPresentStrs cells = some vals → cells = vals.map (fun s => some (Val.str s)) := by
  intro cells
  induction cells with
  | nil =>
    intro vals h
    simp only [allPresentStrs, Option.some.injEq] at h
    subst h
    rfl
  | cons cell t ih =>
    intro vals h
    match cell with
    | none => exact Option.noConfusion h
    | some (.int n) => exact Option.noConfusion h
    | some (.rat q) => exact Option.noConfusion h
    | some (.str s) =>
      cases hts : allPresentStrs t with
      | none => rw [allPresentStrs, hts] at h; simp at h
      | some vs =>
        rw [allPresentStrs, hts] at h
        obtain rfl : vals = s :: vs := by simpa using h.symm
        rw [List.map_cons, ← ih hts]

theorem specCode_lt {vals : List String} {v : String} (hv : v ∈ vals) :
    specCode vals v < vals.dedup.length := by
  apply List.length_filter_lt_length_iff_exists.mpr
  exact ⟨v, List.mem_dedup.mpr hv, by simp⟩

theorem indexOf_sortedDistinct {vals : List String} {v : String} (hv : v ∈ vals) :
    (sortedDistinct vals).indexOf v = specCode vals v := by
  have hmem : v ∈ sortedDistinct vals :=
    (sortedDistinct_perm vals).mem_iff.mpr (List.mem_dedup.mpr hv)
  rw [indexOf_sorted_nodup (sortedDistinct_sorted vals) (sortedDistinct_nodup vals) hmem]
  exact ((sortedDistinct_perm vals).filter _).length_eq

theorem labelEncode_ok_spec {c d : Column} (h : c.labelEncode = .ok d) :
    d.name = c.name ∧ d.dtype = .int64 ∧
    ∃ vals, allPresentStrs c.cells = some vals ∧
      c.cells = vals.map (fun s => some (Val.str s)) ∧
      d.cells = vals.map (fun s => some (Val.int (specCode vals s))) ∧
      ∀ s ∈ vals, specCode vals s < vals.dedup.length := by
  unfold Column.labelEncode at h
  cases hts : allPresentStrs c.cells with
  | none => rw [hts] at h; exact Except.noConfusion h
  | some vals =>
    rw [hts] at h
    simp only [Except.ok.injEq] at h
    subst h
    refine ⟨rfl, rfl, vals, rfl, allPresentStrs_eq hts, ?_, fun s hs => specCode_lt hs⟩
    apply List.map_congr_left
    intro s hs
    rw [indexOf_sortedDistinct hs]

/-! ## Claim C1: per-column label encoding -/

/-- Claim C1: on a table whose columns hold only present string values, the
label encoder transform succeeds and replaces, column by column and
independently of any state, every value by the integer code given by the
ascending sort order of the distinct values observed in that column in this
call input (specCode is the spec reading: the number of distinct smaller
labels), all codes lying below the number k of distinct observed values. -/
theorem labelEncoder_percolumn_codes (X : Table)
    (h : ∀ c ∈ X.cols, ∃ vals, allPresentStrs c.cells = some vals) :
    ∃ Y, labelEncoderTransform X = .ok Y ∧ Y.nrows = X.nrows ∧
      List.Forall₂ (fun c d => d.name = c.name ∧ d.dtype = .int64 ∧
        ∃ vals, allPresentStrs c.cells = some vals ∧
          c.cells = vals.map (fun s => some (Val.str s)) ∧
          d.cells = vals.map (fun s => some (Val.int (specCode vals s))) ∧
          ∀ s ∈ vals, specCode vals s < vals.dedup.length) X.cols Y.cols := by
  have hex : ∀ c ∈ X.cols, ∃ d, Column.labelEncode c = .ok d := by
    intro c hc
    obtain ⟨vals, hvals⟩ := h c hc
    exact ⟨_, by unfold Column.labelEncode; rw [hvals]⟩
  obtain ⟨cs, hcs, hf⟩ := mapE_of_forall_ok hex
  refine ⟨⟨X.nrows, cs⟩, by simp [labelEncoderTransform, hcs], rfl, ?_⟩
  exact hf.imp (fun a b hab => labelEncode_ok_spec hab)

/-- Witness for claim C1 at a concrete one-column table holding the strings
b, a, b: the output codes are 1, 0, 1. -/
theorem labelEncoder_percolumn_codes_witness :
    ∃ Y : Table, labelEncoderTransform ⟨3, [⟨"c", .category ["a", "b"],
        [some (.str "b"), some (.str "a"), some (.str "b")]⟩]⟩ = .ok Y ∧
      Y.nrows = 3 ∧
      List.Forall₂ (fun c d => d.name = c.name ∧ d.dtype = .int64 ∧
        ∃ vals, allPresentStrs c.cells = some vals ∧
          c.cells = vals.map (fun s => some (Val.str s)) ∧
          d.cells = vals.map (fun s => some (Val.int (specCode vals s))) ∧
          ∀ s ∈ vals, specCode vals s < vals.dedup.length)
        ([⟨"c", .category ["a", "b"],
          [some (.str "b"), some (.str "a"), some (.str "b")]⟩] : List Column) Y.cols :=
  labelEncoder_percolumn_codes _ (by
    intro c hc
    simp only [List.mem_singleton] at hc
    subst hc
    exact ⟨["b", "a", "b"], rfl⟩)

/-! ## Claim C2: numeric-branch selection -/

/-- Claim C2 counterexample: on a schema-compatible selected table whose age
column is stored as float64, the dtype selection feeding the numeric branch
excludes age although its declared semantic type is numeric, keeping only
the int64 columns. -/
theorem numeric_branch_skips_float64 :
    (typeSelector ["int64"] exSelectedFloat).names =
      ["education-num", "capital-gain", "capital-loss", "hours-per-week"] ∧
    "age" ∉ (typeSelector ["int64"] exSelectedFloat).names := by
  decide

/-- Claim C2 as amended: on the twelve selected columns, the numeric branch
passes to standardization exactly the columns stored with dtype int64, in
their original relative order: the five numeric columns when they are stored
as int64; a numeric column stored as float64 is silently not selected. -/
theorem numeric_branch_selects_int64 (p : ScalerParams) (nr : Nat)
    (a w en m o r rc sx cg cl hw nc : List Cell)
    (cw cm co cr crc csx cnc : List String) :
    numericBranch p ⟨nr,
      [⟨"age", .int64, a⟩, ⟨"workclass", .category cw, w⟩,
       ⟨"education-num", .int64, en⟩, ⟨"marital-status", .category cm, m⟩,
       ⟨"occupation", .category co, o⟩, ⟨"relationship", .category cr, r⟩,
       ⟨"race", .category crc, rc⟩, ⟨"sex", .category csx, sx⟩,
       ⟨"capital-gain", .int64, cg⟩, ⟨"capital-loss", .int64, cl⟩,
       ⟨"hours-per-week", .int64, hw⟩, ⟨"native-country", .category cnc, nc⟩]⟩ =
    scalerTransform p ⟨nr,
      [⟨"age", .int64, a⟩, ⟨"education-num", .int64, en⟩,
       ⟨"capital-gain", .int64, cg⟩, ⟨"capital-loss", .int64, cl⟩,
       ⟨"hours-per-week", .int64, hw⟩]⟩ := rfl

/-! ## Claim C6: fill-constant imputation -/

/-- Claim C6 counterexample: on a categorical column whose vocabulary
already contains Unknown, transform raises a ValueError from add_categories
instead of filling, so the claimed postconditions fail for this input. -/
theorem fillUnknown_raises_when_present :
    missingCategoricalsTransform "none"
      ⟨2, [⟨"c", .category ["Unknown"], [none, some (.str "x")]⟩]⟩ =
      .error .valueError := rfl

theorem fillUnknown_ok_spec {c d : Column} (h : c.fillUnknown = .ok d) :
    d.name = c.name ∧ (∀ cell ∈ d.cells, cell.isSome) ∧
    (∃ cats, c.dtype = .category cats ∧ d.dtype = .category (cats ++ ["Unknown"]) ∧
      "Unknown" ∈ cats ++ ["Unknown"]) ∧
    List.Forall₂ (fun o n => (o = none → n = some (Val.str "Unknown")) ∧
      (o.isSome → n = o)) c.cells d.cells := by
  unfold Column.fillUnknown at h
  cases hd : c.dtype with
  | int64 => simp only [hd] at h; exact Except.noConfusion h
  | float64 => simp only [hd] at h; exact Except.noConfusion h
  | object => simp only [hd] at h; exact Except.noConfusion h
  | category cats =>
    simp only [hd] at h
    by_cases hu : "Unknown" ∈ cats
    · rw [if_pos hu] at h
      exact Except.noConfusion h
    · rw [if_neg hu] at h
      simp only [Except.ok.injEq] at h
      subst h
      refine ⟨rfl, ?_, ⟨cats, rfl, rfl, by simp⟩, ?_⟩
      · intro cell hcell
        simp only [List.mem_map] at hcell
        obtain ⟨x, _, rfl⟩ := hcell
        rfl
      · apply List.forall₂_map_right_iff.mpr
        apply List.forall₂_same.mpr
        intro x _
        cases x with
        | none => exact ⟨fun _ => rfl, fun hs => by simp at hs⟩
        | some v => exact ⟨fun hx => by simp at hx, fun _ => rfl⟩

/-- Claim C6 as amended: on every table of categorical columns none of whose
vocabularies already contains Unknown, the fill-constant transform succeeds,
the output has no missing cell, every previously missing cell equals the
literal Unknown, Unknown is appended to every vocabulary, and previously
present cells are unchanged; when some vocabulary already contains Unknown,
transform raises instead (see the counterexample). -/
theorem fill_constant_postconditions (X : Table)
    (h : ∀ c ∈ X.cols, ∃ cats, c.dtype = .category cats ∧ "Unknown" ∉ cats) :
    ∃ Y, missingCategoricalsTransform "none" X = .ok Y ∧ Y.nrows = X.nrows ∧
      List.Forall₂ (fun c d => d.name = c.name ∧
        (∀ cell ∈ d.cells, cell.isSome) ∧
        (∃ cats, c.dtype = .category cats ∧
          d.dtype = .category (cats ++ ["Unknown"]) ∧ "Unknown" ∈ cats ++ ["Unknown"]) ∧
        List.Forall₂ (fun o n => (o = none → n = some (Val.str "Unknown")) ∧
          (o.isSome → n = o)) c.cells d.cells) X.cols Y.cols := by
  have hex : ∀ c ∈ X.cols, ∃ d, missingStep "none" c = .ok d := by
    intro c hc
    obtain ⟨cats, hd, hu⟩ := h c hc
    unfold missingStep Column.fillUnknown
    rw [if_pos rfl]
    simp only [hd]
    rw [if_neg hu]
    exact ⟨_, rfl⟩
  obtain ⟨cs, hcs, hf⟩ := mapE_of_forall_ok hex
  refine ⟨⟨X.nrows, cs⟩, by simp [missingCategoricalsTransform, hcs], rfl, ?_⟩
  refine hf.imp (fun a b hab => ?_)
  have hab2 : a.fillUnknown = .ok b := by
    simpa [missingStep] using hab
  exact fillUnknown_ok_spec hab2

/-- Witness for amended claim C6 at a concrete one-column table with one
missing and one present cell. -/
theorem fill_constant_postconditions_witness :
    ∃ Y : Table, missingCategoricalsTransform "none"
        ⟨2, [⟨"c", .category ["x"], [none, some (.str "x")]⟩]⟩ = .ok Y ∧
      Y.nrows = 2 ∧
      List.Forall₂ (fun c d => d.name = c.name ∧
        (∀ cell ∈ d.cells, cell.isSome) ∧
        (∃ cats, c.dtype = .category cats ∧
          d.dtype = .category (cats ++ ["Unknown"]) ∧ "Unknown" ∈ cats ++ ["Unknown"]) ∧
        List.Forall₂ (fun o n => (o = none → n = some (Val.str "Unknown")) ∧
          (o.isSome → n = o)) c.cells d.cells)
        ([⟨"c", .category ["x"], [none, some (.str "x")]⟩] : List Column) Y.cols :=
  fill_constant_postconditions _ (by
    intro c hc
    simp only [List.mem_singleton] at hc
    subst hc
    exact ⟨["x"], rfl, by decide⟩)

/-! ## Claim C10: most-frequent imputation partiality -/

/-- Claim C10 counterexample: a categorical column with all values missing
but a nonempty vocabulary does not fail under the most-frequent strategy:
value_counts on a categorical series lists zero-count categories, so the
subscript finds a key and the column is filled with it. -/
theorem most_frequent_allmissing_vocab_ok :
    missingCategoricalsTransform "most_frequent"
      ⟨2, [⟨"c", .category ["a"], [none, none]⟩]⟩ =
      .ok ⟨2, [⟨"c", .category ["a"], [some (.str "a"), some (.str "a")]⟩]⟩ := rfl

theorem fillMostFrequent_error {c : Column} {e : PipeError}
    (h : c.fillMostFrequent = .error e) : e = .indexError := by
  unfold Column.fillMostFrequent at h
  cases hm : c.mostFrequent with
  | none =>
    simp only [hm, Except.error.injEq] at h
    exact h.symm
  | some v =>
    simp only [hm] at h
    exact Except.noConfusion h

theorem mostFrequent_none_of_vocab_empty {c : Column} (hd : c.dtype = .category []) :
    c.mostFrequent = none := by
  simp [Column.mostFrequent, Column.valueKeys, hd, List.insertionSort]

theorem head?_insertionSort_isSome {α : Type} (r : α → α → Prop) [DecidableRel r]
    {l : List α} (h : l ≠ []) : ∃ v, (List.insertionSort r l).head? = some v := by
  cases hs : List.insertionSort r l with
  | nil =>
    exfalso
    apply h
    have hp := List.perm_insertionSort r l
    rw [hs] at hp
    exact (hp.symm).eq_nil
  | cons a t => exact ⟨a, rfl⟩

theorem mostFrequent_isSome {c : Column} (h : c.valueKeys ≠ []) :
    ∃ v, c.mostFrequent = some v := by
  unfold Column.mostFrequent
  exact head?_insertionSort_isSome _ h

theorem fillMostFrequent_ok_no_missing {c d : Column}
    (h : c.fillMostFrequent = .ok d) : ∀ cell ∈ d.cells, cell.isSome := by
  unfold Column.fillMostFrequent at h
  cases hm : c.mostFrequent with
  | none =>
    simp only [hm] at h
    exact Except.noConfusion h
  | some v =>
    simp only [hm, Except.ok.injEq] at h
    subst h
    intro cell hcell
    simp only [List.mem_map] at hcell
    obtain ⟨x, _, rfl⟩ := hcell
    rfl

theorem forall₂_mem_right {α β : Type} {R : α → β → Prop} {l : List α} {l' : List β}
    (h : List.Forall₂ R l l') {b : β} (hb : b ∈ l') : ∃ a ∈ l, R a b := by
  induction h with
  | nil => simp at hb
  | @cons x y t t' hxy ht ih =>
    rcases List.mem_cons.mp hb with rfl | hb2
    · exact ⟨x, by simp, hxy⟩
    · obtain ⟨a, ha, har⟩ := ih hb2
      exact ⟨a, by simp [ha], har⟩

/-- Claim C10 as amended: under the most-frequent strategy, transform fails
with an IndexError when some column has all values missing and an empty
category vocabulary (the vocabulary an all-missing column receives from the
astype coercion), because the count index is then empty; and the
no-missing-values postcondition holds for every table whose columns each
hold at least one present value belonging to their count keys. -/
theorem most_frequent_partiality (X : Table) :
    ((∃ c ∈ X.cols, (∀ cell ∈ c.cells, cell = none) ∧ c.dtype = .category []) →
      missingCategoricalsTransform "most_frequent" X = .error .indexError) ∧
    ((∀ c ∈ X.cols, ∃ v, some v ∈ c.cells ∧ v ∈ c.valueKeys) →
      ∃ Y, missingCategoricalsTransform "most_frequent" X = .ok Y ∧ Y.nrows = X.nrows ∧
        ∀ d ∈ Y.cols, ∀ cell ∈ d.cells, cell.isSome) := by
  have hstep : ∀ c, missingStep "most_frequent" c = c.fillMostFrequent := by
    intro c
    simp [missingStep]
  constructor
  · rintro ⟨c, hc, hall, hd⟩
    have hmap : mapE (missingStep "most_frequent") X.cols = .error .indexError := by
      apply mapE_error_uniform
      · intro a ha e he
        rw [hstep] at he
        exact fillMostFrequent_error he
      · refine ⟨c, hc, ?_⟩
        intro b hb
        rw [hstep] at hb
        unfold Column.fillMostFrequent at hb
        simp only [mostFrequent_none_of_vocab_empty hd] at hb
        exact Except.noConfusion hb
    simp [missingCategoricalsTransform, hmap]
  · intro hpresent
    have hex : ∀ c ∈ X.cols, ∃ d, missingStep "most_frequent" c = .ok d := by
      intro c hc
      obtain ⟨v, hvc, hvk⟩ := hpresent c hc
      have hne : c.valueKeys ≠ [] := by
        intro hnil
        rw [hnil] at hvk
        simp at hvk
      obtain ⟨w, hw⟩ := mostFrequent_isSome hne
      exact ⟨_, by rw [hstep]; unfold Column.fillMostFrequent; rw [hw]⟩
    obtain ⟨cs, hcs, hf⟩ := mapE_of_forall_ok hex
    refine ⟨⟨X.nrows, cs⟩, by simp [missingCategoricalsTransform, hcs], rfl, ?_⟩
    intro d hd cell hcell
    obtain ⟨a, ha, har⟩ := forall₂_mem_right hf hd
    rw [hstep] at har
    exact fillMostFrequent_ok_no_missing har cell hcell

/-! ## CustomTypeTransformer lemmas for claims C3 and C4 -/

theorem astypeCategory_ok {c d : Column} (h : c.astypeCategory = .ok d) :
    d.name = c.name ∧ d.isCatB = true := by
  unfold Column.astypeCategory at h
  cases hd : c.dtype with
  | category cats =>
    simp only [hd, Except.ok.injEq] at h
    subst h
    exact ⟨rfl, by simp [Column.isCatB, hd]⟩
  | int64 =>
    simp only [hd] at h
    cases hp : presentStrs c.cells with
    | none => rw [hp] at h; exact Except.noConfusion h
    | some l =>
      rw [hp] at h
      simp only [Except.ok.injEq] at h
      subst h
      exact ⟨rfl, rfl⟩
  | float64 =>
    simp only [hd] at h
    cases hp : presentStrs c.cells with
    | none => rw [hp] at h; exact Except.noConfusion h
    | some l =>
      rw [hp] at h
      simp only [Except.ok.injEq] at h
      subst h
      exact ⟨rfl, rfl⟩
  | object =>
    simp only [hd] at h
    cases hp : presentStrs c.cells with
    | none => rw [hp] at h; exact Except.noConfusion h
    | some l =>
      rw [hp] at h
      simp only [Except.ok.injEq] at h
      subst h
      exact ⟨rfl, rfl⟩

theorem astypeCategory_id {c : Column} (h : c.isCatB = true) :
    c.astypeCategory = .ok c := by
  unfold Column.isCatB at h
  unfold Column.astypeCategory
  cases hd : c.dtype with
  | category cats => simp [hd]
  | int64 => rw [hd] at h; exact Bool.noConfusion h
  | float64 => rw [hd] at h; exact Bool.noConfusion h
  | object => rw [hd] at h; exact Bool.noConfusion h

theorem astype_step_point {n : String} {c d : Column}
    (h : (if c.name = n then c.astypeCategory else .ok c) = .ok d) :
    d.name = c.name ∧ (d.name = n → d.isCatB = true) ∧
      (c.isCatB = true → d.isCatB = true) := by
  by_cases hcn : c.name = n
  · rw [if_pos hcn] at h
    obtain ⟨hname, hcat⟩ := astypeCategory_ok h
    exact ⟨hname, fun _ => hcat, fun _ => hcat⟩
  · rw [if_neg hcn] at h
    simp only [Except.ok.injEq] at h
    subst h
    exact ⟨rfl, fun hn => absurd hn hcn, id⟩

theorem map_name_forall₂ {cs ds : List Column}
    (h : List.Forall₂ (fun c d => d.name = c.name) cs ds) :
    ds.map Column.name = cs.map Column.name := by
  induction h with
  | nil => rfl
  | @cons a b _ _ hab _ ih => simp [ih, hab]

theorem astypeCategoryAt_ok {X Y : Table} {n : String}
    (h : X.astypeCategoryAt n = .ok Y) :
    Y.names = X.names ∧ Y.nrows = X.nrows ∧ n ∈ X.names ∧ IsCatAt Y n ∧
      (∀ m, IsCatAt X m → IsCatAt Y m) := by
  unfold Table.astypeCategoryAt at h
  by_cases hmem : n ∈ X.names
  · rw [if_pos hmem] at h
    cases hm : mapE (fun c => if c.name = n then c.astypeCategory else .ok c) X.cols with
    | error e => rw [hm] at h; exact Except.noConfusion h
    | ok cs =>
      rw [hm] at h
      simp only [Except.ok.injEq] at h
      subst h
      have hf := mapE_ok_forall₂ hm
      have hnames : cs.map Column.name = X.cols.map Column.name :=
        map_name_forall₂ (hf.imp (fun a b hab => (astype_step_point hab).1))
      refine ⟨hnames, rfl, hmem, ?_, ?_⟩
      · intro d hd hdn
        obtain ⟨c, _, hcd⟩ := forall₂_mem_right hf hd
        exact (astype_step_point hcd).2.1 hdn
      · intro m hm2 d hd hdn
        obtain ⟨c, hcX, hcd⟩ := forall₂_mem_right hf hd
        have hpt := astype_step_point hcd
        exact hpt.2.2 (hm2 c hcX (hpt.1 ▸ hdn))
  · rw [if_neg hmem] at h
    exact Except.noConfusion h

theorem astypeCategoryAt_noop {X : Table} {n : String}
    (hcat : IsCatAt X n) (hmem : n ∈ X.names) :
    X.astypeCategoryAt n = .ok X := by
  unfold Table.astypeCategoryAt
  rw [if_pos hmem]
  have hid : mapE (fun c => if c.name = n then c.astypeCategory else .ok c) X.cols =
      .ok X.cols := by
    apply mapE_id
    intro c hc
    by_cases hcn : c.name = n
    · rw [if_pos hcn]
      exact astypeCategory_id (hcat c hc hcn)
    · rw [if_neg hcn]
  rw [hid]

theorem foldE_astype_ok : ∀ {cs : List String} {X Y : Table},
    foldE Table.astypeCategoryAt X cs = .ok Y →
    Y.names = X.names ∧ Y.nrows = X.nrows ∧
      (∀ m, IsCatAt X m → IsCatAt Y m) ∧
      (∀ n ∈ cs, IsCatAt Y n ∧ n ∈ Y.names) := by
  intro cs
  induction cs with
  | nil =>
    intro X Y h
    simp only [foldE, Except.ok.injEq] at h
    subst h
    exact ⟨rfl, rfl, fun _ => id, by simp⟩
  | cons a t ih =>
    intro X Y h
    unfold foldE at h
    cases hs : X.astypeCategoryAt a with
    | error e => rw [hs] at h; exact Except.noConfusion h
    | ok X1 =>
      rw [hs] at h
      obtain ⟨hn1, hr1, hmem1, hcat1, hpres1⟩ := astypeCategoryAt_ok hs
      obtain ⟨hn2, hr2, hpres2, hall2⟩ := ih h
      refine ⟨hn2.trans hn1, hr2.trans hr1, fun m hm => hpres2 m (hpres1 m hm), ?_⟩
      intro n hn
      rcases List.mem_cons.mp hn with rfl | hnt
      · exact ⟨hpres2 n hcat1, by rw [hn2, hn1]; exact hmem1⟩
      · exact hall2 n hnt

theorem foldE_astype_noop : ∀ {cs : List String} {Y : Table},
    (∀ n ∈ cs, IsCatAt Y n ∧ n ∈ Y.names) →
    foldE Table.astypeCategoryAt Y cs = .ok Y := by
  intro cs
  induction cs with
  | nil => intro Y _; rfl
  | cons a t ih =>
    intro Y h
    obtain ⟨hcat, hmem⟩ := h a (by simp)
    unfold foldE
    rw [astypeCategoryAt_noop hcat hmem]
    exact ih (fun n hn => h n (by simp [hn]))

theorem customTypeTransform_idem {X Y : Table}
    (h : customTypeTransform X = .ok Y) : customTypeTransform Y = .ok Y :=
  foldE_astype_noop (foldE_astype_ok h).2.2.2

/-! ## Claim C3: in-place mutation of the caller table -/

/-- Claim C3 counterexample: CustomTypeTransformer.transform assigns each
coerced column back into the caller frame with X.loc, so after a successful
call on the example Adult table the caller table is the transformed table,
which differs from the input (its object columns became categorical). -/
theorem customType_mutates_caller :
    customTypeCall exAdult = .ok (exAdultMut, exAdultMut) ∧ exAdultMut ≠ exAdult :=
  ⟨rfl, by decide⟩

/-- Claim C3 as amended: ColumnSelector, TypeSelector and the
sparse-to-DataFrame materialization leave the caller argument unchanged,
while CustomTypeTransformer, MissingCategoricalsTransformer and
PipelineAwareLabelEncoder alias their output with the caller frame (the
X.loc assignments mutate it in place); in particular a successful
CustomTypeTransformer call on a table holding an object-typed workclass
column leaves the caller table changed. -/
theorem mutation_profile :
    (∀ sel X Y Z, columnSelectorCall sel X = .ok (Y, Z) → Z = X) ∧
    (∀ dtypes X, (typeSelectorCall dtypes X).2 = X) ∧
    (∀ m, (sparseToDataFrameCall m).2 = m) ∧
    (∀ X Y Z, customTypeCall X = .ok (Y, Z) → Z = Y) ∧
    (∀ s X Y Z, missingCategoricalsCall s X = .ok (Y, Z) → Z = Y) ∧
    (∀ X Y Z, labelEncoderCall X = .ok (Y, Z) → Z = Y) ∧
    (∀ X Y, customTypeTransform X = .ok Y →
      (∃ c ∈ X.cols, c.name = "workclass" ∧ c.dtype = .object) → Y ≠ X) := by
  refine ⟨?_, fun _ _ => rfl, fun _ => rfl, ?_, ?_, ?_, ?_⟩
  · intro sel X Y Z h
    unfold columnSelectorCall at h
    cases hs : columnSelector sel X with
    | error e => rw [hs] at h; exact Except.noConfusion h
    | ok W =>
      rw [hs] at h
      simp only [Except.ok.injEq, Prod.mk.injEq] at h
      exact h.2.symm
  · intro X Y Z h
    unfold customTypeCall at h
    cases hs : customTypeTransform X with
    | error e => rw [hs] at h; exact Except.noConfusion h
    | ok W =>
      rw [hs] at h
      simp only [Except.ok.injEq, Prod.mk.injEq] at h
      rw [← h.2]
      exact h.1
  · intro s X Y Z h
    unfold missingCategoricalsCall at h
    cases hs : missingCategoricalsTransform s X with
    | error e => rw [hs] at h; exact Except.noConfusion h
    | ok W =>
      rw [hs] at h
      simp only [Except.ok.injEq, Prod.mk.injEq] at h
      rw [← h.2]
      exact h.1
  · intro X Y Z h
    unfold labelEncoderCall at h
    cases hs : labelEncoderTransform X with
    | error e => rw [hs] at h; exact Except.noConfusion h
    | ok W =>
      rw [hs] at h
      simp only [Except.ok.injEq, Prod.mk.injEq] at h
      rw [← h.2]
      exact h.1
  · intro X Y hY hobj hEq
    obtain ⟨c, hc, hname, hdtype⟩ := hobj
    have hcat : IsCatAt Y "workclass" :=
      ((foldE_astype_ok hY).2.2.2 "workclass" (by simp [catCols8])).1
    rw [hEq] at hcat
    have := hcat c hc hname
    rw [Column.isCatB, hdtype] at this
    exact Bool.noConfusion this

/-- Witness for amended claim C3: the caller-mutation conjunct applied to
the example Adult run, and the purity conjunct for the type selector. -/
theorem mutation_profile_witness :
    exAdultMut ≠ exAdult ∧ (typeSelectorCall ["int64"] exAdult).2 = exAdult :=
  ⟨mutation_profile.2.2.2.2.2.2 exAdult exAdultMut rfl
      ⟨⟨"workclass", .object, [some (.str "Private")]⟩, by decide, rfl, rfl⟩,
   mutation_profile.2.1 ["int64"] exAdult⟩

/-! ## Claim C4: idempotence of transform after a single fit -/

/-- Claim C4: transform is idempotent after a single fit: a successful
pipeline transform on table X returns the matrix m and leaves the caller
table in state X1; calling transform again on that identical table returns
the same matrix m (and leaves the table unchanged), because the only stage
touching the caller frame, the astype coercion, is idempotent and every
later stage is a deterministic function of the fitted parameters and its
input frame. -/
theorem transform_idempotent_after_fit (f : FittedParams) (X m X1 : Table)
    (h : preprocessTransform f X = .ok (m, X1)) :
    preprocessTransform f X1 = .ok (m, X1) := by
  unfold preprocessTransform at h ⊢
  cases hc : customTypeTransform X with
  | error e => rw [hc] at h; exact Except.noConfusion h
  | ok Y =>
    simp only [hc] at h
    cases hr : preprocessRest f Y with
    | error e => simp [hr] at h
    | ok out =>
      simp only [hr, Except.ok.injEq, Prod.mk.injEq] at h
      obtain ⟨rfl, rfl⟩ := h
      simp only [customTypeTransform_idem hc, hr]

/-- Witness for claim C4: the concrete example run of the fitted pipeline;
transform on the caller table left by the first call reproduces the first
output exactly. -/
theorem transform_idempotent_after_fit_witness :
    preprocessTransform exFitted exAdultMut = .ok (exAdultOut, exAdultMut) :=
  transform_idempotent_after_fit exFitted exAdult exAdultOut exAdultMut rfl

/-- Witness for amended claim C10 at concrete inputs: the all-missing column
with empty vocabulary raises an IndexError, and a column with one present
in-vocabulary value is filled completely. -/
theorem most_frequent_partiality_witness :
    missingCategoricalsTransform "most_frequent"
      ⟨1, [⟨"c", .category [], [none]⟩]⟩ = .error .indexError ∧
    ∃ Y, missingCategoricalsTransform "most_frequent"
        ⟨2, [⟨"c", .category ["a"], [some (.str "a"), none]⟩]⟩ = .ok Y ∧
      Y.nrows = 2 ∧ ∀ d ∈ Y.cols, ∀ cell ∈ d.cells, cell.isSome :=
  ⟨(most_frequent_partiality ⟨1, [⟨"c", .category [], [none]⟩]⟩).1
      ⟨⟨"c", .category [], [none]⟩, by simp, by simp, rfl⟩,
   (most_frequent_partiality ⟨2, [⟨"c", .category ["a"], [some (.str "a"), none]⟩]⟩).2
      (by
        intro c hc
        simp only [List.mem_singleton] at hc
        subst hc
        exact ⟨.str "a", by simp, by decide⟩)⟩

end Pipeline1
